import Mathlib

/-!
Verification of the jobqueue admission controller (Go package `jobqueue`).

The embedding models:
* the bounded LIFO stack of waiting jobs (`stack.go`): the Go implementation
  keeps a doubly linked list where `push` is `PushFront`, `pop` removes the
  front element and `shift`/`bottom` act on the back element.  We represent the
  buffer as a `List Nat` of waiter identifiers where the head is the top
  (most recently pushed) and the last element is the bottom (oldest).
* the single-writer event loop `run` (the full variant with graceful and
  forced close, close timeout, and status queries): each `select` case becomes
  a step function on an explicit controller state.  Besides the fields of the
  Go `Stack` struct (`options`, `buffer`, `busy`, `closing`, plus the
  `hasQuit` broadcast modelled as the `closed` flag and the armed close timer
  as `closeTimerArmed`), the state carries a ghost `log` of every value sent on
  a waiter's notify channel, the set of waiter ids handed to the loop
  (`arrived`), and the number of processed completion events (`doneCount`),
  which let us state the delivery properties.
* the HTTP adapter (`NewHandler` / `ServeHTTP`).
-/

namespace Jobqueue

/-- The values a waiter can receive on its one-shot notify channel:
`ok` is the Go `nil` result, the others are `ErrStackFull`, `ErrTimeout`
and `ErrClosed`. -/
inductive Sig where
  | ok
  | stackFull
  | timeoutErr
  | closedErr
deriving DecidableEq, Repr

/-- The `Options` struct.  Durations are modelled as integers where only
positivity matters (`Timeout > 0` arms per-waiter deadlines, `CloseTimeout > 0`
arms the grace timer). -/
structure Options where
  maxConcurrency : Int
  maxStackSize : Int
  timeout : Int
  closeTimeout : Int
deriving DecidableEq, Repr

/-- The `Status` snapshot struct. -/
structure StatusRec where
  activeJobs : Int
  queuedJobs : Int
  closing : Bool
  closed : Bool
deriving DecidableEq, Repr

/-- Controller state: the fields of the Go `Stack` owned by the `run` loop,
plus the ghost fields `arrived`, `log` and `doneCount` recording the
observable history. -/
structure State where
  options : Options
  buffer : List Nat
  busy : Int
  closing : Bool
  closed : Bool
  closeTimerArmed : Bool
  arrived : List Nat
  log : List (Nat × Sig)
  doneCount : Nat
deriving DecidableEq, Repr

/-- `stack.empty`: the list has no elements. -/
def stackEmpty (b : List Nat) : Bool :=
  b.length == 0

/-- `stack.full`: `cap > 0 && list.Len() == cap`. -/
def stackIsFull (b : List Nat) (cap : Int) : Bool :=
  cap > 0 && (b.length : Int) == cap

/-- `stack.bottom`: the back (oldest) element, if any. -/
def stackBottom (b : List Nat) : Option Nat :=
  b.getLast?

/-- `stack.push`: `list.PushFront`, so the new element becomes the head. -/
def stackPush (j : Nat) (b : List Nat) : List Nat :=
  j :: b

/-- `stack.pop`: remove and return the front (most recently pushed) element. -/
def stackPop (b : List Nat) : Option (Nat × List Nat) :=
  match b with
  | [] => none
  | j :: rest => some (j, rest)

/-- `stack.shift`: remove and return the back (oldest) element. -/
def stackShift (b : List Nat) : Option (Nat × List Nat) :=
  match b.getLast? with
  | none => none
  | some j => some (j, b.dropLast)

/-- `With`: normalize the options; a non-positive `MaxConcurrency` becomes 1. -/
def withOptions (o : Options) : Options :=
  if o.maxConcurrency ≤ 0 then { o with maxConcurrency := 1 } else o

/-- The state right after `With(o)` spawns the `run` loop. -/
def initState (o : Options) : State :=
  { options := withOptions o
    buffer := []
    busy := 0
    closing := false
    closed := false
    closeTimerArmed := false
    arrived := []
    log := []
    doneCount := 0 }

/-- The `case j := <-s.req` branch of `run`: if closing, reject with
`ErrClosed`; else if a concurrency slot is free, admit with `nil`; else
displace the oldest waiter when the stack is full and push the new waiter. -/
def stepArrive (s : State) (i : Nat) : State :=
  let s0 := { s with arrived := s.arrived ++ [i] }
  if s0.closing then
    { s0 with log := s0.log ++ [(i, Sig.closedErr)] }
  else if s0.busy < s0.options.maxConcurrency then
    { s0 with busy := s0.busy + 1, log := s0.log ++ [(i, Sig.ok)] }
  else
    let s1 :=
      if stackIsFull s0.buffer s0.options.maxStackSize then
        match stackShift s0.buffer with
        | some (old, rest) =>
            { s0 with buffer := rest, log := s0.log ++ [(old, Sig.stackFull)] }
        | none => s0
      else s0
    { s1 with buffer := stackPush i s1.buffer }

/-- The first half of the `case <-s.done` branch of `run`: decrement `busy`;
if the stack is non-empty, pop the top waiter and admit it. -/
def stepDoneCore (s : State) : State :=
  let s0 := { s with busy := s.busy - 1, doneCount := s.doneCount + 1 }
  if stackEmpty s0.buffer then s0
  else
    match stackPop s0.buffer with
    | some (j, rest) =>
        { s0 with busy := s0.busy + 1, buffer := rest, log := s0.log ++ [(j, Sig.ok)] }
    | none => s0

/-- The `case <-s.done` branch of `run`: after decrementing and possibly
re-admitting, if closing and fully drained, close `hasQuit` and return. -/
def stepDone (s : State) : State :=
  let s1 := stepDoneCore s
  if s1.closing && s1.busy == 0 && stackEmpty s1.buffer then
    { s1 with closed := true }
  else s1

/-- The `case <-timeout` branch of `run`: the watched deadline is the bottom
waiter's; it receives `ErrTimeout` and is shifted out. -/
def stepTimeout (s : State) : State :=
  match stackShift s.buffer with
  | none => s
  | some (old, rest) =>
      { s with buffer := rest, log := s.log ++ [(old, Sig.timeoutErr)] }

/-- `rejectQueued`: shift waiters out of the stack until it is empty, sending
`ErrClosed` to each.  Shifting removes the back element, so the notifications
go out oldest-first, i.e. in the reverse of the top-first list order. -/
def rejectQueued (s : State) : State :=
  { s with
    buffer := []
    log := s.log ++ s.buffer.reverse.map (fun j => (j, Sig.closedErr)) }

/-- The `case forced := <-s.quit` branch of `run`: forced close rejects all
queued waiters and terminates; graceful close sets `closing`, terminates
immediately when already drained, and otherwise arms the grace timer if
`CloseTimeout > 0`. -/
def stepClose (s : State) (forced : Bool) : State :=
  if forced then
    { rejectQueued s with closed := true }
  else
    let s0 := { s with closing := true }
    if s0.busy == 0 && stackEmpty s0.buffer then
      { s0 with closed := true }
    else if s0.options.closeTimeout > 0 then
      { s0 with closeTimerArmed := true }
    else s0

/-- The `case <-closeTimeout` branch of `run`: reject all queued waiters and
terminate without waiting for in-flight jobs. -/
def stepCloseTimeout (s : State) : State :=
  { rejectQueued s with closed := true }

/-- The `case status := <-s.status` branch of `run`: the snapshot sent back
(the `Closed` field is left at its zero value `false` by the loop). -/
def statusOf (s : State) : StatusRec :=
  { activeJobs := s.busy
    queuedJobs := s.buffer.length
    closing := s.closing
    closed := false }

/-- The events the `run` loop selects over. -/
inductive Event where
  | arrive (i : Nat)
  | done
  | timeoutFire
  | closeReq (forced : Bool)
  | closeTimeoutFire
  | statusReq
deriving DecidableEq, Repr

/-- One iteration of the `run` loop, dispatching on the selected case. -/
def step (s : State) (e : Event) : State :=
  match e with
  | Event.arrive i => stepArrive s i
  | Event.done => stepDone s
  | Event.timeoutFire => stepTimeout s
  | Event.closeReq f => stepClose s f
  | Event.closeTimeoutFire => stepCloseTimeout s
  | Event.statusReq => s

/-- Number of `nil` (ok) results sent so far. -/
def okCount (log : List (Nat × Sig)) : Nat :=
  log.countP (fun p => p.2 == Sig.ok)

/-- Number of signals sent to waiter `i` so far. -/
def sigCount (log : List (Nat × Sig)) (i : Nat) : Nat :=
  log.countP (fun p => p.1 == i)

/-- When the Go runtime can deliver an event to the loop: the loop must still
be running; an arriving waiter is a fresh one; a completion can only come from
a caller that received `nil` and calls its `done` function at most once; the
deadline selector is armed only when the bottom waiter exists and carries a
timer; the grace timer can fire only once armed. -/
def enabled (s : State) (e : Event) : Bool :=
  !s.closed &&
    match e with
    | Event.arrive i => !(s.arrived.contains i)
    | Event.done => s.doneCount < okCount s.log
    | Event.timeoutFire => !(stackEmpty s.buffer) && s.options.timeout > 0
    | Event.closeTimeoutFire => s.closeTimerArmed
    | Event.closeReq _ => true
    | Event.statusReq => true

/-- The states the controller can reach from `With(o)` along a well-formed
event sequence. -/
inductive Reachable (o : Options) : State → Prop where
  | init : Reachable o (initState o)
  | next {s : State} {e : Event} :
      Reachable o s → enabled s e = true → Reachable o (step s e)

/-- `Wait` after termination: the select between sending on `req` and
receiving the `hasQuit` broadcast.  Once the loop has returned nobody receives
on `req`, so the only ready branch is `hasQuit` and `Wait` returns `ErrClosed`
(`some`); while the loop runs the request engages the loop (`none`). -/
def waitCall (s : State) : Option Sig :=
  if s.closed then some Sig.closedErr else none

/-- `Status`: select between the `hasQuit` broadcast and the status channel;
after termination it returns the zero snapshot with `Closed = true` without
engaging the loop. -/
def statusCall (s : State) : StatusRec :=
  if s.closed then
    { activeJobs := 0, queuedJobs := 0, closing := false, closed := true }
  else statusOf s

/-- The `done` function returned by a successful `Wait`: select between
sending a completion token and the `hasQuit` broadcast.  After termination it
is a no-op (`none`); otherwise it hands the loop a completion event. -/
def releaseCall (s : State) : Option Event :=
  if s.closed then none else some Event.done

/-- `HTTPOptions`: the stack options extended with the two HTTP status codes,
both defaulting to 503 when the configured value is 0. -/
structure HTTPOptions where
  options : Options
  stackFullStatusCode : Int
  timeoutStatusCode : Int
deriving DecidableEq, Repr

/-- The `Handler` wrapper: its normalized configuration and whether an inner
handler was supplied (a `nil` inner handler is replaced by `nop404`). -/
structure HandlerModel where
  options : HTTPOptions
  hasInner : Bool
deriving DecidableEq, Repr

/-- `NewHandler`: substitute `nop404` for a missing inner handler and replace
zero status codes with 503 (`http.StatusServiceUnavailable`). -/
def NewHandler (o : HTTPOptions) (hasInner : Bool) : HandlerModel :=
  let o1 := if o.stackFullStatusCode = 0 then { o with stackFullStatusCode := 503 } else o
  let o2 := if o1.timeoutStatusCode = 0 then { o1 with timeoutStatusCode := 503 } else o1
  { options := o2, hasInner := hasInner }

/-- `Handler.ServeHTTP`: run the wrapped handler through `stack.Do` and map
the outcome to the response status.  On `ErrStackFull` and `ErrTimeout` the
adapter writes the configured code; on success the inner handler's response
stands (`nop404` writes 404 when no inner handler is configured); in the
remaining case (`ErrClosed`) nothing is written and `net/http` defaults the
status to 200. -/
def ServeHTTP (h : HandlerModel) (outcome : Sig) (innerStatus : Int) : Int :=
  match outcome with
  | Sig.stackFull => h.options.stackFullStatusCode
  | Sig.timeoutErr => h.options.timeoutStatusCode
  | Sig.ok => if h.hasInner then innerStatus else 404
  | Sig.closedErr => 200

/-- Modelled from the spec: the repository sources under `src/` contain no
`reconfigure` operation; spec section 4.3 step 4 specifies trimming the buffer
to the new `max_stack_size` by repeated `drop_bottom()` with an
`ERR_STACK_FULL` notification for each dropped waiter.  The loop is written
with an explicit fuel that bounds the number of iterations (each iteration
removes one element, so the initial buffer length suffices).  Returns the
trimmed buffer and the notifications in the order they are sent (oldest
first). -/
def trimGo (fuel : Nat) (b : List Nat) (cap : Int) : List Nat × List (Nat × Sig) :=
  match fuel with
  | 0 => (b, [])
  | Nat.succ fuel =>
      if 0 < cap ∧ cap < (b.length : Int) then
        match stackShift b with
        | none => (b, [])
        | some (old, rest) =>
            let r := trimGo fuel rest cap
            (r.1, (old, Sig.stackFull) :: r.2)
      else (b, [])

/-- Modelled from the spec: spec section 4.3 step 4, see `trimGo`. -/
def trimLoop (b : List Nat) (cap : Int) : List Nat × List (Nat × Sig) :=
  trimGo b.length b cap

/-- Modelled from the spec: spec section 4.3 step 5 specifies that while
`active < max_concurrency` and the buffer is non-empty, the top waiter is
popped and admitted (`OK` sent, active incremented).  Returns the remaining
buffer, the new active count, and the notifications in order. -/
def admitLoop (b : List Nat) (busy maxConc : Int) : List Nat × Int × List (Nat × Sig) :=
  match b with
  | [] => (b, busy, [])
  | j :: rest =>
      if busy < maxConc then
        let r := admitLoop rest (busy + 1) maxConc
        (r.1, r.2.1, (j, Sig.ok) :: r.2.2)
      else (b, busy, [])

/-- Modelled from the spec: the repository sources under `src/` contain no
`reconfigure` operation; this follows spec section 4.3.  If closed, respond
`ERR_CLOSED`; otherwise normalize the new `max_concurrency`, replace the
options, trim the buffer to the new `max_stack_size` (notifying dropped
waiters with `ERR_STACK_FULL`), admit from the top while a slot is free, and
return the updated state (success). -/
def reconfigure (s : State) (newOpts : Options) : Except Sig State :=
  if s.closed then Except.error Sig.closedErr
  else
    let opts := withOptions newOpts
    let tr := trimLoop s.buffer opts.maxStackSize
    let ad := admitLoop tr.1 s.busy opts.maxConcurrency
    Except.ok
      { s with
        options := opts
        buffer := ad.1
        busy := ad.2.1
        log := s.log ++ tr.2 ++ ad.2.2 }

/-- A concrete controller state used as witness input: `max_concurrency = 1`
with per-waiter timeouts armed; waiter 0 was admitted and is running, and
waiters 1 (older, at the bottom) and 2 (newer, on top) are queued. -/
def twoQueued : State :=
  ⟨⟨1, 0, 5, 0⟩, [2, 1], 1, false, false, false, [0, 1, 2], [(0, Sig.ok)], 0⟩

/-- The buffer that survives the trimming phase of `reconfigure`: when the
new capacity is positive, the newest `cap` waiters (the top of the stack);
otherwise the whole buffer. -/
def trimmedBuffer (s : State) (no : Options) : List Nat :=
  if 0 < (withOptions no).maxStackSize then
    s.buffer.take (withOptions no).maxStackSize.toNat
  else s.buffer

/-- The waiters dropped by the trimming phase of `reconfigure` (the oldest
ones, i.e. the tail of the top-first list beyond the new capacity). -/
def droppedWaiters (s : State) (no : Options) : List Nat :=
  if 0 < (withOptions no).maxStackSize then
    s.buffer.drop (withOptions no).maxStackSize.toNat
  else []

/-- How many waiters the admission phase of `reconfigure` promotes: the free
slots under the new ceiling, bounded by the trimmed buffer length. -/
def admitCount (s : State) (no : Options) : Nat :=
  min ((withOptions no).maxConcurrency - s.busy).toNat (trimmedBuffer s no).length

/-- Characterization of `reconfigure` (claim C5): after termination it
answers `ERR_CLOSED`; otherwise it succeeds with the normalized options
installed, the buffer trimmed at the bottom to the new capacity (each dropped
waiter notified with `ERR_STACK_FULL`, oldest first) and then drained from the
top into the free concurrency slots (each admitted waiter notified `OK`). -/
def reconfigureSpec (s : State) (no : Options) : Prop :=
  (s.closed = true → reconfigure s no = Except.error Sig.closedErr) ∧
  (s.closed = false →
    ∃ t : State,
      reconfigure s no = Except.ok t ∧
      t.options = withOptions no ∧
      (no.maxConcurrency ≤ 0 → t.options.maxConcurrency = 1) ∧
      t.closing = s.closing ∧
      t.closed = false ∧
      t.buffer = (trimmedBuffer s no).drop (admitCount s no) ∧
      t.busy = s.busy + ((admitCount s no : Nat) : Int) ∧
      t.log = s.log ++ ((droppedWaiters s no).reverse.map (fun j => (j, Sig.stackFull))
                    ++ ((trimmedBuffer s no).take (admitCount s no)).map (fun j => (j, Sig.ok))))

/-- A concrete run used as a witness trace: one waiter admitted, a graceful
close requested, then the running job completes and the controller
terminates. -/
def runClosedExample : State :=
  step (step (step (initState ⟨1, 0, 0, 0⟩) (Event.arrive 0)) (Event.closeReq false)) Event.done

/-- A concrete run used as a witness trace: with `max_concurrency = 1` and
`max_stack_size = 1`, waiter 0 is admitted and waiter 1 is queued. -/
def runQueuedExample : State :=
  step (step (initState ⟨1, 1, 0, 0⟩) (Event.arrive 0)) (Event.arrive 1)

/-- The arrival-event case split of claim C1, in observable terms: exactly one
of the four guarded outcomes applies, the guards tested in order. -/
def arrivalCaseSplit (s : State) (i : Nat) : Prop :=
  ((s.closing = true ∨ s.closed = true) ∧
      (stepArrive s i).log = s.log ++ [(i, Sig.closedErr)] ∧
      (stepArrive s i).buffer = s.buffer ∧
      i ∉ (stepArrive s i).buffer ∧
      (stepArrive s i).busy = s.busy) ∨
  (s.closing = false ∧ s.closed = false ∧ s.busy < s.options.maxConcurrency ∧
      (stepArrive s i).busy = s.busy + 1 ∧
      (stepArrive s i).log = s.log ++ [(i, Sig.ok)] ∧
      (stepArrive s i).buffer = s.buffer) ∨
  (s.closing = false ∧ s.closed = false ∧ ¬ s.busy < s.options.maxConcurrency ∧
      stackIsFull s.buffer s.options.maxStackSize = true ∧
      ∃ old : Nat, stackBottom s.buffer = some old ∧
        (stepArrive s i).log = s.log ++ [(old, Sig.stackFull)] ∧
        (stepArrive s i).buffer = stackPush i s.buffer.dropLast ∧
        (stepArrive s i).busy = s.busy) ∨
  (s.closing = false ∧ s.closed = false ∧ ¬ s.busy < s.options.maxConcurrency ∧
      stackIsFull s.buffer s.options.maxStackSize = false ∧
      (stepArrive s i).buffer = stackPush i s.buffer ∧
      (stepArrive s i).log = s.log ∧
      (stepArrive s i).busy = s.busy)

/-- The graceful-close protocol of claim C6, in observable terms. -/
def closeProtocol (s : State) : Prop :=
  ((s.busy = 0 ∧ s.buffer = []) → (stepClose s false).closed = true) ∧
  (¬ (s.busy = 0 ∧ s.buffer = []) →
      (stepClose s false).closed = false ∧
      (stepClose s false).closing = true ∧
      (stepClose s false).buffer = s.buffer ∧
      (stepClose s false).busy = s.busy ∧
      (0 < s.options.closeTimeout → (stepClose s false).closeTimerArmed = true)) ∧
  (s.closing = true → ∀ i : Nat,
      (stepArrive s i).log = s.log ++ [(i, Sig.closedErr)] ∧
      (stepArrive s i).buffer = s.buffer ∧
      (stepArrive s i).busy = s.busy) ∧
  (s.closing = true →
      ((stepDone s).closed = true ↔
        ((stepDone s).busy = 0 ∧ (stepDone s).buffer = []))) ∧
  ((stepCloseTimeout s).closed = true ∧
      (stepCloseTimeout s).buffer = [] ∧
      (stepCloseTimeout s).busy = s.busy ∧
      (stepCloseTimeout s).log =
        s.log ++ s.buffer.reverse.map (fun j => (j, Sig.closedErr)))

/-- The inductive invariant of the controller, relating the ghost history to
the loop state.  `bufNoSig`, `goneSig` and `freshSig` say that a waiter is in
exactly one place: parked in the buffer with no result delivered, or gone with
exactly one result delivered.  `busyEq` counts admissions against completions;
`queueBusy` is the no-free-slot-while-queued property; `capBound` is the
capacity bound. -/
structure Inv (s : State) : Prop where
  bufArr : ∀ i ∈ s.buffer, i ∈ s.arrived
  bufNodup : s.buffer.Nodup
  bufNoSig : ∀ i ∈ s.buffer, sigCount s.log i = 0
  goneSig : ∀ i ∈ s.arrived, i ∉ s.buffer → sigCount s.log i = 1
  freshSig : ∀ i : Nat, i ∉ s.arrived → sigCount s.log i = 0
  busyEq : s.busy = (okCount s.log : Int) - (s.doneCount : Int)
  doneLe : s.doneCount ≤ okCount s.log
  busyMax : s.busy ≤ s.options.maxConcurrency
  maxPos : 0 < s.options.maxConcurrency
  queueBusy : s.buffer ≠ [] → s.busy = s.options.maxConcurrency
  capBound : 0 < s.options.maxStackSize → (s.buffer.length : Int) ≤ s.options.maxStackSize
  closedBuf : s.closed = true → s.buffer = []

lemma stackShift_eq_some {b rest : List Nat} {old : Nat}
    (h : stackShift b = some (old, rest)) :
    b.getLast? = some old ∧ rest = b.dropLast ∧ old ∈ b ∧ b ≠ [] := by
  simp only [stackShift] at h
  rcases hb : b.getLast? with _ | last
  · rw [hb] at h; cases h
  · rw [hb] at h
    cases h
    refine ⟨rfl, rfl, List.mem_of_mem_getLast? hb, ?_⟩
    rintro rfl; simp at hb

lemma stackShift_of_ne_nil {b : List Nat} (h : b ≠ []) :
    ∃ old : Nat, stackShift b = some (old, b.dropLast) ∧ stackBottom b = some old := by
  rcases hb : b.getLast? with _ | last
  · exact absurd (List.getLast?_eq_none_iff.mp hb) h
  · exact ⟨last, by simp [stackShift, hb], by simp [stackBottom, hb]⟩

lemma not_mem_dropLast_of_getLast? {b : List Nat} {x : Nat}
    (h : b.getLast? = some x) (hn : b.Nodup) : x ∉ b.dropLast := by
  intro hmem
  have hne : b ≠ [] := by rintro rfl; simp at h
  have hcat : b.dropLast ++ [b.getLast hne] = b := List.dropLast_append_getLast hne
  have hx : b.getLast hne = x := by
    have hq := List.getLast?_eq_getLast b hne
    rw [hq] at h; exact Option.some.inj h
  have hnd : (b.dropLast ++ [b.getLast hne]).Nodup := by rw [hcat]; exact hn
  exact (List.nodup_append.mp hnd).2.2 hmem (by simp [hx])

lemma dropLast_append_of_getLast? {b : List Nat} {x : Nat}
    (h : b.getLast? = some x) : b.dropLast ++ [x] = b := by
  have hne : b ≠ [] := by rintro rfl; simp at h
  have hx : b.getLast hne = x := by
    have hq := List.getLast?_eq_getLast b hne
    rw [hq] at h; exact Option.some.inj h
  rw [← hx]; exact List.dropLast_append_getLast hne

lemma full_ne_nil {b : List Nat} {cap : Int}
    (h : stackIsFull b cap = true) : b ≠ [] := by
  simp only [stackIsFull, Bool.and_eq_true, decide_eq_true_eq, beq_iff_eq] at h
  rintro rfl
  simp at h
  omega

lemma sigCount_append (l1 l2 : List (Nat × Sig)) (i : Nat) :
    sigCount (l1 ++ l2) i = sigCount l1 i + sigCount l2 i :=
  List.countP_append _ l1 l2

lemma sigCount_single (j : Nat) (v : Sig) (i : Nat) :
    sigCount [(j, v)] i = if j = i then 1 else 0 := by
  simp only [sigCount, List.countP_cons, List.countP_nil]
  by_cases h : j = i <;> simp [h]

lemma okCount_append (l1 l2 : List (Nat × Sig)) :
    okCount (l1 ++ l2) = okCount l1 + okCount l2 :=
  List.countP_append _ l1 l2

lemma okCount_single (j : Nat) (v : Sig) :
    okCount [(j, v)] = if v = Sig.ok then 1 else 0 := by
  simp only [okCount, List.countP_cons, List.countP_nil]
  by_cases h : v = Sig.ok <;> simp [h]

lemma okCount_ok (l : List (Nat × Sig)) (j : Nat) :
    okCount (l ++ [(j, Sig.ok)]) = okCount l + 1 := by
  rw [okCount_append, okCount_single, if_pos rfl]

lemma okCount_notok (l : List (Nat × Sig)) (j : Nat) (v : Sig) (h : ¬ v = Sig.ok) :
    okCount (l ++ [(j, v)]) = okCount l := by
  rw [okCount_append, okCount_single, if_neg h]
  omega

lemma sigCount_closed_notices (b : List Nat) (i : Nat) :
    sigCount (b.reverse.map (fun j => (j, Sig.closedErr))) i = b.count i := by
  simp only [sigCount, List.countP_map]
  have h1 : ((fun p : Nat × Sig => p.1 == i) ∘ fun j => (j, Sig.closedErr))
      = fun j : Nat => j == i := rfl
  rw [h1]
  have h2 : b.reverse.countP (fun j : Nat => j == i) = b.reverse.count i := by
    simp [List.count]
  rw [h2]
  exact List.count_reverse i b

lemma okCount_closed_notices (b : List Nat) :
    okCount (b.reverse.map (fun j => (j, Sig.closedErr))) = 0 := by
  simp only [okCount, List.countP_map]
  apply List.countP_eq_zero.mpr
  intro a _
  simp

lemma stackEmpty_iff {b : List Nat} : stackEmpty b = true ↔ b = [] := by
  simp [stackEmpty, List.length_eq_zero]

lemma mem_of_not_mem_dropLast {b : List Nat} {old k : Nat}
    (hb : b.getLast? = some old) (hk : k ∈ b) (h1 : k ∉ b.dropLast) : k = old := by
  have hcat := dropLast_append_of_getLast? hb
  rw [← hcat] at hk
  rcases List.mem_append.mp hk with h | h
  · exact absurd h h1
  · simpa using h

lemma not_mem_of_decomp {b : List Nat} {old k : Nat} (hb : b.getLast? = some old)
    (h1 : k ∉ b.dropLast) (h2 : k ≠ old) : k ∉ b := by
  have hcat := dropLast_append_of_getLast? hb
  rw [← hcat]
  intro hk
  rcases List.mem_append.mp hk with h | h
  · exact h1 h
  · exact h2 (by simpa using h)

lemma enabled_unpack_arrive {s : State} {i : Nat}
    (h : enabled s (Event.arrive i) = true) : s.closed = false ∧ i ∉ s.arrived := by
  simp only [enabled, Bool.and_eq_true, Bool.not_eq_true'] at h
  exact ⟨h.1, by simpa using h.2⟩

lemma enabled_unpack_done {s : State}
    (h : enabled s Event.done = true) : s.closed = false ∧ s.doneCount < okCount s.log := by
  simp only [enabled, Bool.and_eq_true, Bool.not_eq_true'] at h
  exact ⟨h.1, by simpa using h.2⟩

lemma enabled_closed_false {s : State} {e : Event}
    (h : enabled s e = true) : s.closed = false := by
  simp only [enabled, Bool.and_eq_true, Bool.not_eq_true'] at h
  exact h.1

lemma inv_init (o : Options) : Inv (initState o) := by
  refine ⟨?_, ?_, ?_, ?_, ?_, ?_, ?_, ?_, ?_, ?_, ?_, ?_⟩ <;>
    simp [initState, sigCount, okCount]
  all_goals
    simp only [withOptions]
    split_ifs with h <;> first | omega | simp

lemma stepDoneCore_nil {s : State} (hbuf : s.buffer = []) :
    stepDoneCore s = { s with busy := s.busy - 1, doneCount := s.doneCount + 1 } := by
  simp [stepDoneCore, hbuf, stackEmpty]

lemma stepDoneCore_cons {s : State} {w : Nat} {rest : List Nat}
    (hbuf : s.buffer = w :: rest) :
    stepDoneCore s = { s with busy := s.busy - 1 + 1, buffer := rest, log := s.log ++ [(w, Sig.ok)], doneCount := s.doneCount + 1 } := by
  simp only [stepDoneCore]
  rw [hbuf]
  simp [stackEmpty, stackPop]

lemma stepDone_eq (s : State) :
    stepDone s = (if (stepDoneCore s).closing && (stepDoneCore s).busy == 0 && stackEmpty (stepDoneCore s).buffer then { stepDoneCore s with closed := true } else stepDoneCore s) := rfl

lemma inv_set_closed {s : State} (hI : Inv s) (hb : s.buffer = []) :
    Inv { s with closed := true } :=
  ⟨hI.bufArr, hI.bufNodup, hI.bufNoSig, hI.goneSig, hI.freshSig, hI.busyEq,
   hI.doneLe, hI.busyMax, hI.maxPos, hI.queueBusy, hI.capBound, fun _ => hb⟩

lemma inv_stepArrive {s : State} {i : Nat} (hI : Inv s)
    (hcl : s.closed = false) (hfresh : i ∉ s.arrived) : Inv (stepArrive s i) := by
  have hibuf : i ∉ s.buffer := fun hmem => hfresh (hI.bufArr i hmem)
  by_cases hc : s.closing = true
  · -- rejected with ErrClosed
    have ht : stepArrive s i =
        { s with arrived := s.arrived ++ [i], log := s.log ++ [(i, Sig.closedErr)] } := by
      simp [stepArrive, hc]
    rw [ht]
    refine ⟨fun j hj => List.mem_append.mpr (Or.inl (hI.bufArr j hj)), hI.bufNodup,
      ?_, ?_, ?_, ?_, ?_, hI.busyMax, hI.maxPos, hI.queueBusy, hI.capBound, ?_⟩
    · intro j hj
      have hij : ¬ i = j := by rintro rfl; exact hibuf hj
      rw [sigCount_append, sigCount_single, hI.bufNoSig j hj, if_neg hij]
    · intro j hj hnb
      rw [sigCount_append, sigCount_single]
      rcases List.mem_append.mp hj with hj1 | hj2
      · have hij : ¬ i = j := by rintro rfl; exact hfresh hj1
        rw [hI.goneSig j hj1 hnb, if_neg hij]
      · have hji : j = i := by simpa using hj2
        subst hji
        rw [hI.freshSig j hfresh, if_pos rfl]
    · intro j hj
      have h1 : j ∉ s.arrived := fun hja => hj (List.mem_append.mpr (Or.inl hja))
      have hij : ¬ i = j := by rintro rfl; exact hj (List.mem_append.mpr (Or.inr (by simp)))
      rw [sigCount_append, sigCount_single, hI.freshSig j h1, if_neg hij]
    · have h0 := hI.busyEq
      dsimp only
      rw [okCount_notok s.log i Sig.closedErr (by decide)]
      exact h0
    · have h0 := hI.doneLe
      dsimp only
      rw [okCount_notok s.log i Sig.closedErr (by decide)]
      exact h0
    · intro h
      exact absurd h (by simp [hcl])
  · have hc' : s.closing = false := by simpa using hc
    by_cases hb : s.busy < s.options.maxConcurrency
    · -- admitted with OK
      have ht : stepArrive s i = { s with arrived := s.arrived ++ [i], busy := s.busy + 1, log := s.log ++ [(i, Sig.ok)] } := by
        simp [stepArrive, hc', hb]
      rw [ht]
      refine ⟨fun j hj => List.mem_append.mpr (Or.inl (hI.bufArr j hj)), hI.bufNodup,
        ?_, ?_, ?_, ?_, ?_, ?_, hI.maxPos, ?_, hI.capBound, ?_⟩
      · intro j hj
        have hij : ¬ i = j := by rintro rfl; exact hibuf hj
        rw [sigCount_append, sigCount_single, hI.bufNoSig j hj, if_neg hij]
      · intro j hj hnb
        rw [sigCount_append, sigCount_single]
        rcases List.mem_append.mp hj with hj1 | hj2
        · have hij : ¬ i = j := by rintro rfl; exact hfresh hj1
          rw [hI.goneSig j hj1 hnb, if_neg hij]
        · have hji : j = i := by simpa using hj2
          subst hji
          rw [hI.freshSig j hfresh, if_pos rfl]
      · intro j hj
        have h1 : j ∉ s.arrived := fun hja => hj (List.mem_append.mpr (Or.inl hja))
        have hij : ¬ i = j := by rintro rfl; exact hj (List.mem_append.mpr (Or.inr (by simp)))
        rw [sigCount_append, sigCount_single, hI.freshSig j h1, if_neg hij]
      · have h0 := hI.busyEq
        dsimp only
        rw [okCount_ok]
        push_cast
        omega
      · have h0 := hI.doneLe
        dsimp only
        rw [okCount_ok]
        omega
      · have h0 := hI.busyMax
        dsimp only
        omega
      · intro hne
        have h1 := hI.queueBusy hne
        dsimp only
        omega
      · intro h
        exact absurd h (by simp [hcl])
    · by_cases hf : stackIsFull s.buffer s.options.maxStackSize = true
      · -- displacement: evict the oldest, then push
        have hne : s.buffer ≠ [] := full_ne_nil hf
        obtain ⟨old, hsh, hbot⟩ := stackShift_of_ne_nil hne
        have hgl : s.buffer.getLast? = some old := by simpa [stackBottom] using hbot
        have ht : stepArrive s i = { s with arrived := s.arrived ++ [i], buffer := i :: s.buffer.dropLast, log := s.log ++ [(old, Sig.stackFull)] } := by
          simp [stepArrive, hc', hb, hf, hsh, stackPush]
        have holdmem : old ∈ s.buffer := List.mem_of_mem_getLast? hgl
        have holdA : old ∈ s.arrived := hI.bufArr old holdmem
        have hLd : old ∉ s.buffer.dropLast :=
          not_mem_dropLast_of_getLast? hgl hI.bufNodup
        have hsub : ∀ k, k ∈ s.buffer.dropLast → k ∈ s.buffer :=
          fun k hk => (List.dropLast_sublist _).subset hk
        have hiL : i ∉ s.buffer.dropLast := fun hk => hibuf (hsub i hk)
        rw [ht]
        refine ⟨?_, ?_, ?_, ?_, ?_, ?_, ?_, hI.busyMax, hI.maxPos, ?_, ?_, ?_⟩
        · intro j hj
          rcases List.mem_cons.mp hj with hj1 | hj2
          · subst hj1; exact List.mem_append.mpr (Or.inr (by simp))
          · exact List.mem_append.mpr (Or.inl (hI.bufArr j (hsub j hj2)))
        · exact List.nodup_cons.mpr ⟨hiL, hI.bufNodup.sublist (List.dropLast_sublist _)⟩
        · intro j hj
          rw [sigCount_append, sigCount_single]
          rcases List.mem_cons.mp hj with hj1 | hj2
          · subst hj1
            have hoj : ¬ old = j := by rintro rfl; exact hfresh holdA
            rw [hI.freshSig j hfresh, if_neg hoj]
          · have hoj : ¬ old = j := by rintro rfl; exact hLd hj2
            rw [hI.bufNoSig j (hsub j hj2), if_neg hoj]
        · intro j hj hnb
          have hnb2 : ¬ j = i ∧ j ∉ s.buffer.dropLast := by
            constructor
            · rintro rfl; exact hnb (List.mem_cons_self _ _)
            · intro hk; exact hnb (List.mem_cons_of_mem _ hk)
          rw [sigCount_append, sigCount_single]
          by_cases hjo : j = old
          · subst hjo
            rw [hI.bufNoSig j holdmem, if_pos rfl]
          · have hjb : j ∉ s.buffer :=
              not_mem_of_decomp hgl hnb2.2 hjo
            have hjA : j ∈ s.arrived := by
              rcases List.mem_append.mp hj with h1 | h2
              · exact h1
              · exact absurd (by simpa using h2) hnb2.1
            have hoj : ¬ old = j := fun he => hjo he.symm
            rw [hI.goneSig j hjA hjb, if_neg hoj]
        · intro j hj
          have h1 : j ∉ s.arrived := fun hja => hj (List.mem_append.mpr (Or.inl hja))
          have hoj : ¬ old = j := by rintro rfl; exact h1 holdA
          rw [sigCount_append, sigCount_single, hI.freshSig j h1, if_neg hoj]
        · have h0 := hI.busyEq
          dsimp only
          rw [okCount_notok s.log old Sig.stackFull (by decide)]
          exact h0
        · have h0 := hI.doneLe
          dsimp only
          rw [okCount_notok s.log old Sig.stackFull (by decide)]
          exact h0
        · intro _
          have h0 := hI.busyMax
          dsimp only
          omega
        · intro hcap
          dsimp only at hcap ⊢
          simp only [stackIsFull, Bool.and_eq_true, decide_eq_true_eq, beq_iff_eq] at hf
          have h1 : s.buffer.dropLast.length = s.buffer.length - 1 :=
            List.length_dropLast _
          have h2 : s.buffer.length ≠ 0 := fun h0 => hne (List.length_eq_zero.mp h0)
          simp only [List.length_cons, h1]
          push_cast
          omega
        · intro h
          exact absurd h (by simp [hcl])
      · -- plain push
        have hf' : stackIsFull s.buffer s.options.maxStackSize = false := by
          simpa using hf
        have ht : stepArrive s i = { s with arrived := s.arrived ++ [i], buffer := i :: s.buffer } := by
          simp [stepArrive, hc', hb, hf', stackPush]
        rw [ht]
        refine ⟨?_, List.nodup_cons.mpr ⟨hibuf, hI.bufNodup⟩, ?_, ?_, ?_,
          hI.busyEq, hI.doneLe, hI.busyMax, hI.maxPos, ?_, ?_, ?_⟩
        · intro j hj
          rcases List.mem_cons.mp hj with hj1 | hj2
          · subst hj1; exact List.mem_append.mpr (Or.inr (by simp))
          · exact List.mem_append.mpr (Or.inl (hI.bufArr j hj2))
        · intro j hj
          rcases List.mem_cons.mp hj with hj1 | hj2
          · subst hj1; exact hI.freshSig j hfresh
          · exact hI.bufNoSig j hj2
        · intro j hj hnb
          have hji : ¬ j = i := by rintro rfl; exact hnb (List.mem_cons_self _ _)
          have hjb : j ∉ s.buffer := fun hk => hnb (List.mem_cons_of_mem _ hk)
          have hjA : j ∈ s.arrived := by
            rcases List.mem_append.mp hj with h1 | h2
            · exact h1
            · exact absurd (by simpa using h2) hji
          exact hI.goneSig j hjA hjb
        · intro j hj
          exact hI.freshSig j (fun hja => hj (List.mem_append.mpr (Or.inl hja)))
        · intro _
          have h0 := hI.busyMax
          dsimp only
          omega
        · intro hcap
          dsimp only at hcap ⊢
          have hlen := hI.capBound hcap
          have hf2 : ((s.buffer.length : Int)) ≠ s.options.maxStackSize := by
            intro he
            have : stackIsFull s.buffer s.options.maxStackSize = true := by
              simp [stackIsFull, hcap, he]
            rw [this] at hf'
            cases hf'
          simp only [List.length_cons]
          push_cast
          omega
        · intro h
          exact absurd h (by simp [hcl])

lemma inv_stepDoneCore {s : State} (hI : Inv s) (hcl : s.closed = false)
    (hdc : s.doneCount < okCount s.log) : Inv (stepDoneCore s) := by
  rcases hbuf : s.buffer with _ | ⟨j, rest⟩
  · rw [stepDoneCore_nil hbuf]
    refine ⟨hI.bufArr, hI.bufNodup, hI.bufNoSig, hI.goneSig, hI.freshSig, ?_, ?_, ?_,
      hI.maxPos, ?_, hI.capBound, ?_⟩
    · have h0 := hI.busyEq
      dsimp only
      push_cast
      omega
    · dsimp only
      omega
    · have h0 := hI.busyMax
      dsimp only
      omega
    · intro hne
      exact absurd hbuf hne
    · intro _
      exact hbuf
  · rw [stepDoneCore_cons hbuf]
    have hnd : (j :: rest).Nodup := hbuf ▸ hI.bufNodup
    have hjrest : j ∉ rest := (List.nodup_cons.mp hnd).1
    have hrnd : rest.Nodup := (List.nodup_cons.mp hnd).2
    have hjmem : j ∈ s.buffer := by rw [hbuf]; exact List.mem_cons_self _ _
    have hjA : j ∈ s.arrived := hI.bufArr j hjmem
    have hrsub : ∀ k, k ∈ rest → k ∈ s.buffer := by
      intro k hk; rw [hbuf]; exact List.mem_cons_of_mem _ hk
    refine ⟨?_, hrnd, ?_, ?_, ?_, ?_, ?_, ?_, hI.maxPos, ?_, ?_, ?_⟩
    · intro k hk
      exact hI.bufArr k (hrsub k hk)
    · intro k hk
      have hjk : ¬ j = k := by rintro rfl; exact hjrest hk
      rw [sigCount_append, sigCount_single, hI.bufNoSig k (hrsub k hk), if_neg hjk]
    · intro k hkA hkr
      rw [sigCount_append, sigCount_single]
      by_cases hkj : k = j
      · subst hkj
        rw [hI.bufNoSig k hjmem, if_pos rfl]
      · have hkb : k ∉ s.buffer := by
          rw [hbuf]
          intro hmem
          rcases List.mem_cons.mp hmem with h1 | h2
          · exact hkj h1
          · exact hkr h2
        have hjk : ¬ j = k := fun he => hkj he.symm
        rw [hI.goneSig k hkA hkb, if_neg hjk]
    · intro k hk
      have hjk : ¬ j = k := by rintro rfl; exact hk hjA
      rw [sigCount_append, sigCount_single, hI.freshSig k hk, if_neg hjk]
    · have h0 := hI.busyEq
      dsimp only
      rw [okCount_ok]
      push_cast
      omega
    · have h0 := hI.doneLe
      dsimp only
      rw [okCount_ok]
      omega
    · have h0 := hI.busyMax
      dsimp only
      omega
    · intro hne
      have h1 : s.buffer ≠ [] := by rw [hbuf]; exact List.cons_ne_nil _ _
      have h2 := hI.queueBusy h1
      dsimp only
      omega
    · intro hcap
      have h1 := hI.capBound hcap
      rw [hbuf] at h1
      dsimp only at hcap ⊢
      simp only [List.length_cons] at h1
      push_cast at h1 ⊢
      omega
    · intro h
      exact absurd h (by simp [hcl])

lemma inv_stepDone {s : State} (hI : Inv s) (hcl : s.closed = false)
    (hdc : s.doneCount < okCount s.log) : Inv (stepDone s) := by
  have hc := inv_stepDoneCore hI hcl hdc
  rw [stepDone_eq]
  split
  · next hcond =>
      have hb : (stepDoneCore s).buffer = [] := by
        have h2 : stackEmpty (stepDoneCore s).buffer = true := by
          simp only [Bool.and_eq_true] at hcond
          exact hcond.2
        exact stackEmpty_iff.mp h2
      exact inv_set_closed hc hb
  · exact hc

lemma inv_stepTimeout {s : State} (hI : Inv s) (hcl : s.closed = false) :
    Inv (stepTimeout s) := by
  rcases hsh : stackShift s.buffer with _ | ⟨old, rest⟩
  · have ht : stepTimeout s = s := by simp [stepTimeout, hsh]
    rw [ht]; exact hI
  · obtain ⟨hgl, hrest, holdmem, hne⟩ := stackShift_eq_some hsh
    subst hrest
    have ht : stepTimeout s = { s with buffer := s.buffer.dropLast, log := s.log ++ [(old, Sig.timeoutErr)] } := by
      simp [stepTimeout, hsh]
    rw [ht]
    have holdA : old ∈ s.arrived := hI.bufArr old holdmem
    have hLd : old ∉ s.buffer.dropLast :=
      not_mem_dropLast_of_getLast? hgl hI.bufNodup
    have hsub : ∀ k, k ∈ s.buffer.dropLast → k ∈ s.buffer :=
      fun k hk => (List.dropLast_sublist _).subset hk
    refine ⟨?_, hI.bufNodup.sublist (List.dropLast_sublist _), ?_, ?_, ?_, ?_, ?_,
      hI.busyMax, hI.maxPos, ?_, ?_, ?_⟩
    · intro k hk
      exact hI.bufArr k (hsub k hk)
    · intro k hk
      have hok : ¬ old = k := by rintro rfl; exact hLd hk
      rw [sigCount_append, sigCount_single, hI.bufNoSig k (hsub k hk), if_neg hok]
    · intro k hkA hkd
      rw [sigCount_append, sigCount_single]
      by_cases hko : k = old
      · subst hko
        rw [hI.bufNoSig k holdmem, if_pos rfl]
      · have hkb : k ∉ s.buffer := not_mem_of_decomp hgl hkd hko
        have hok : ¬ old = k := fun he => hko he.symm
        rw [hI.goneSig k hkA hkb, if_neg hok]
    · intro k hk
      have hok : ¬ old = k := by rintro rfl; exact hk holdA
      rw [sigCount_append, sigCount_single, hI.freshSig k hk, if_neg hok]
    · have h0 := hI.busyEq
      dsimp only
      rw [okCount_notok s.log old Sig.timeoutErr (by decide)]
      exact h0
    · have h0 := hI.doneLe
      dsimp only
      rw [okCount_notok s.log old Sig.timeoutErr (by decide)]
      exact h0
    · intro hdne
      have h1 := hI.queueBusy hne
      dsimp only
      omega
    · intro hcap
      have h1 := hI.capBound hcap
      have h2 : s.buffer.dropLast.length = s.buffer.length - 1 := List.length_dropLast _
      dsimp only at hcap ⊢
      omega
    · intro h
      exact absurd h (by simp [hcl])

lemma inv_rejectQueued {s : State} (hI : Inv s) : Inv (rejectQueued s) := by
  have ht : rejectQueued s = { s with buffer := [], log := s.log ++ s.buffer.reverse.map (fun j => (j, Sig.closedErr)) } := rfl
  rw [ht]
  refine ⟨?_, List.nodup_nil, ?_, ?_, ?_, ?_, ?_, hI.busyMax, hI.maxPos, ?_, ?_, ?_⟩
  · intro k hk
    cases hk
  · intro k hk
    cases hk
  · intro k hkA _
    rw [sigCount_append, sigCount_closed_notices]
    by_cases hkb : k ∈ s.buffer
    · rw [hI.bufNoSig k hkb, List.count_eq_one_of_mem hI.bufNodup hkb]
    · rw [hI.goneSig k hkA hkb, List.count_eq_zero.mpr hkb]
  · intro k hk
    have hkb : k ∉ s.buffer := fun hm => hk (hI.bufArr k hm)
    rw [sigCount_append, sigCount_closed_notices, hI.freshSig k hk,
      List.count_eq_zero.mpr hkb]
  · have h0 := hI.busyEq
    dsimp only
    rw [okCount_append, okCount_closed_notices]
    push_cast
    omega
  · have h0 := hI.doneLe
    dsimp only
    rw [okCount_append, okCount_closed_notices]
    omega
  · intro hne
    exact absurd rfl hne
  · intro hcap
    dsimp only at hcap ⊢
    simp only [List.length_nil]
    omega
  · intro _
    rfl

lemma stepClose_false (s : State) :
    stepClose s false = (if s.busy == 0 && stackEmpty s.buffer then { s with closing := true, closed := true } else if s.options.closeTimeout > 0 then { s with closing := true, closeTimerArmed := true } else { s with closing := true }) :=
  rfl

lemma stepClose_true (s : State) :
    stepClose s true = { rejectQueued s with closed := true } :=
  rfl

lemma inv_stepClose {s : State} (hI : Inv s) (f : Bool) :
    Inv (stepClose s f) := by
  have hIc : Inv { s with closing := true } :=
    ⟨hI.bufArr, hI.bufNodup, hI.bufNoSig, hI.goneSig, hI.freshSig, hI.busyEq,
     hI.doneLe, hI.busyMax, hI.maxPos, hI.queueBusy, hI.capBound,
     fun h => hI.closedBuf h⟩
  cases f
  · -- graceful close
    rw [stepClose_false]
    split
    · next hcond =>
        have hb : s.buffer = [] := by
          simp only [Bool.and_eq_true] at hcond
          exact stackEmpty_iff.mp hcond.2
        exact inv_set_closed hIc hb
    · split
      · exact ⟨hIc.bufArr, hIc.bufNodup, hIc.bufNoSig, hIc.goneSig, hIc.freshSig,
          hIc.busyEq, hIc.doneLe, hIc.busyMax, hIc.maxPos, hIc.queueBusy,
          hIc.capBound, fun h => hIc.closedBuf h⟩
      · exact hIc
  · -- forced close
    rw [stepClose_true]
    exact inv_set_closed (inv_rejectQueued hI) rfl

lemma inv_stepCloseTimeout {s : State} (hI : Inv s) : Inv (stepCloseTimeout s) :=
  inv_set_closed (inv_rejectQueued hI) rfl

lemma inv_step {s : State} {e : Event} (hI : Inv s) (he : enabled s e = true) :
    Inv (step s e) := by
  cases e with
  | arrive i =>
      obtain ⟨h1, h2⟩ := enabled_unpack_arrive he
      exact inv_stepArrive hI h1 h2
  | done =>
      obtain ⟨h1, h2⟩ := enabled_unpack_done he
      exact inv_stepDone hI h1 h2
  | timeoutFire =>
      exact inv_stepTimeout hI (enabled_closed_false he)
  | closeReq f =>
      exact inv_stepClose hI f
  | closeTimeoutFire =>
      exact inv_stepCloseTimeout hI
  | statusReq =>
      exact hI

lemma inv_reachable {o : Options} {s : State} (h : Reachable o s) : Inv s := by
  induction h with
  | init => exact inv_init o
  | next hr he ih => exact inv_step ih he

lemma step_options (s : State) (e : Event) : (step s e).options = s.options := by
  cases e with
  | arrive i =>
      simp only [step, stepArrive]
      split
      · rfl
      · split
        · rfl
        · split
          · next hh =>
              rcases hsh : stackShift s.buffer with _ | ⟨old, rest⟩ <;>
                simp [hsh, stackPush]
          · rfl
  | done =>
      rw [step, stepDone_eq]
      rcases hbuf : s.buffer with _ | ⟨j, rest⟩
      · rw [stepDoneCore_nil hbuf]
        split <;> rfl
      · rw [stepDoneCore_cons hbuf]
        split <;> rfl
  | timeoutFire =>
      simp only [step, stepTimeout]
      rcases hsh : stackShift s.buffer with _ | ⟨old, rest⟩ <;> simp [hsh]
  | closeReq f =>
      cases f
      · show (stepClose s false).options = s.options
        rw [stepClose_false]
        split
        · rfl
        · split <;> rfl
      · show (stepClose s true).options = s.options
        rw [stepClose_true]
        rfl
  | closeTimeoutFire => rfl
  | statusReq => rfl

/-- C1: every arrival event takes exactly one of four outcomes, the guards
tested in order: reject with `ERR_CLOSED` without enqueuing when closing or
closed; admit with `OK` and increment the active count when a concurrency slot
is free; otherwise displace the oldest queued waiter with `ERR_STACK_FULL`
before pushing when the buffer is full; otherwise just push. -/
theorem arrival_event_cases (s : State) (i : Nat)
    (hrun : s.closed = false) (hfresh : i ∉ s.buffer) :
    arrivalCaseSplit s i := by
  unfold arrivalCaseSplit
  by_cases hc : s.closing = true
  · left
    refine ⟨Or.inl hc, ?_, ?_, ?_, ?_⟩ <;> simp [stepArrive, hc, hfresh]
  · have hc' : s.closing = false := by simpa using hc
    by_cases hb : s.busy < s.options.maxConcurrency
    · right; left
      refine ⟨hc', hrun, hb, ?_, ?_, ?_⟩ <;> simp [stepArrive, hc', hb]
    · by_cases hf : stackIsFull s.buffer s.options.maxStackSize = true
      · right; right; left
        have hne : s.buffer ≠ [] := full_ne_nil hf
        obtain ⟨old, hsh, hbot⟩ := stackShift_of_ne_nil hne
        refine ⟨hc', hrun, hb, hf, old, hbot, ?_, ?_, ?_⟩ <;>
          simp [stepArrive, hc', hb, hf, hsh, stackPush]
      · right; right; right
        have hf' : stackIsFull s.buffer s.options.maxStackSize = false := by
          simpa using hf
        refine ⟨hc', hrun, hb, hf', ?_, ?_, ?_⟩ <;>
          simp [stepArrive, hc', hb, hf', stackPush]

/-- C1 witness: at a fresh controller with `max_concurrency = 1`, the first
arriving waiter is admitted. -/
theorem arrival_event_cases_witness :
    arrivalCaseSplit (initState ⟨1, 0, 0, 0⟩) 0 :=
  arrival_event_cases (initState ⟨1, 0, 0, 0⟩) 0 (by decide) (by decide)

/-- C3: the buffer is LIFO: `push` then `pop` returns the pushed waiter and
restores the buffer; `shift`/`bottom` act on the oldest element; and a
completion event admits the most recently queued waiter, leaving the earlier
ones queued in order. -/
theorem lifo_admission :
    (∀ (j : Nat) (b : List Nat), stackPop (stackPush j b) = some (j, b)) ∧
    (∀ (b rest : List Nat) (old : Nat), stackShift b = some (old, rest) →
        stackBottom b = some old ∧ rest = b.dropLast) ∧
    (∀ (s : State) (w : Nat) (rest : List Nat), s.buffer = stackPush w rest →
        (stepDone s).buffer = rest ∧
        (stepDone s).log = s.log ++ [(w, Sig.ok)] ∧
        (stepDone s).busy = s.busy) := by
  refine ⟨fun j b => rfl, ?_, ?_⟩
  · intro b rest old h
    obtain ⟨h1, h2, _, _⟩ := stackShift_eq_some h
    exact ⟨h1, h2⟩
  · intro s w rest hbuf
    have hcore := stepDoneCore_cons (show s.buffer = w :: rest from hbuf)
    have harith : s.busy - 1 + 1 = s.busy := by omega
    refine ⟨?_, ?_, ?_⟩ <;> rw [stepDone_eq] <;> split <;> simp [hcore, harith]

/-- C3 witness: push then pop on a concrete buffer, and a completion at a
concrete two-waiter state admits the newer waiter. -/
theorem lifo_admission_witness :
    stackPop (stackPush 7 [3]) = some (7, [3]) ∧
    (stepDone twoQueued).buffer = [1] :=
  ⟨lifo_admission.1 7 [3], (lifo_admission.2.2 twoQueued 2 [1] rfl).1⟩

/-- C8: a waiter-deadline expiry sends `ERR_TIMEOUT` to the oldest queued
waiter and removes it from the bottom of the buffer; the active count, the
rest of the buffer and its order, the options and all lifecycle flags are
unchanged. -/
theorem timeout_frame (s : State) (old : Nat) (rest : List Nat)
    (h : stackShift s.buffer = some (old, rest)) :
    stackBottom s.buffer = some old ∧
    (stepTimeout s).log = s.log ++ [(old, Sig.timeoutErr)] ∧
    (stepTimeout s).buffer = rest ∧
    rest = s.buffer.dropLast ∧
    (stepTimeout s).busy = s.busy ∧
    (stepTimeout s).options = s.options ∧
    (stepTimeout s).closing = s.closing ∧
    (stepTimeout s).closed = s.closed ∧
    (stepTimeout s).closeTimerArmed = s.closeTimerArmed ∧
    (stepTimeout s).arrived = s.arrived ∧
    (stepTimeout s).doneCount = s.doneCount := by
  obtain ⟨h1, h2, _, _⟩ := stackShift_eq_some h
  refine ⟨by simp [stackBottom, h1], ?_⟩
  simp [stepTimeout, h, h2]

/-- C8 witness: expiry at a concrete state with two queued waiters: the older
waiter 1 times out and the newer waiter 2 stays queued. -/
theorem timeout_frame_witness :
    (stepTimeout twoQueued).buffer = [2] ∧
    (stepTimeout twoQueued).log = [(0, Sig.ok), (1, Sig.timeoutErr)] :=
  ⟨(timeout_frame twoQueued 1 [2] rfl).2.2.1,
   by
    have h := (timeout_frame twoQueued 1 [2] rfl).2.1
    simpa [twoQueued] using h⟩

/-- C2: along every well-formed event trace, each waiter receives at most one
signal on its result channel (in particular a waiter that received `OK` never
receives a further signal, whatever events follow), and when the controller
has terminated every waiter that ever arrived has received exactly one
signal. -/
theorem exactly_once_delivery (o : Options) (s : State) (h : Reachable o s) :
    (∀ i : Nat, sigCount s.log i ≤ 1) ∧
    (∀ i : Nat, (i, Sig.ok) ∈ s.log → sigCount s.log i = 1) ∧
    (s.closed = true → ∀ i ∈ s.arrived, sigCount s.log i = 1) := by
  have hI := inv_reachable h
  have hle : ∀ i : Nat, sigCount s.log i ≤ 1 := by
    intro i
    by_cases hA : i ∈ s.arrived
    · by_cases hb : i ∈ s.buffer
      · rw [hI.bufNoSig i hb]
        omega
      · rw [hI.goneSig i hA hb]
    · rw [hI.freshSig i hA]
      omega
  refine ⟨hle, ?_, ?_⟩
  · intro i hmem
    have hpos : 0 < sigCount s.log i := by
      rw [sigCount, List.countP_pos_iff]
      exact ⟨(i, Sig.ok), hmem, by simp⟩
    have h1 := hle i
    omega
  · intro hc i hA
    have hb : i ∉ s.buffer := by
      rw [hI.closedBuf hc]
      simp
    exact hI.goneSig i hA hb

/-- C2 witness: in the concrete admit-close-complete run the controller has
terminated and the single waiter received exactly one signal. -/
theorem exactly_once_delivery_witness :
    sigCount runClosedExample.log 0 = 1 :=
  (exactly_once_delivery ⟨1, 0, 0, 0⟩ runClosedExample
      (Reachable.next (Reachable.next (Reachable.next Reachable.init (by decide)) (by decide)) (by decide))).2.2
    (by decide) 0 (by decide)

/-- C4: in every reachable state with a positive `max_stack_size`, the buffer
length lies between 0 and the bound; every enabled event preserves the bound;
and at a full buffer the displacement path removes the oldest waiter first, so
pushing the arrival after the drop stays within the bound. -/
theorem buffer_capacity_bound (o : Options) (s : State) (h : Reachable o s)
    (hcap : 0 < s.options.maxStackSize) :
    (0 ≤ (s.buffer.length : Int) ∧ (s.buffer.length : Int) ≤ s.options.maxStackSize) ∧
    (∀ e : Event, enabled s e = true →
        ((step s e).buffer.length : Int) ≤ s.options.maxStackSize) ∧
    (stackIsFull s.buffer s.options.maxStackSize = true →
        (∃ old : Nat, stackBottom s.buffer = some old ∧ stackShift s.buffer = some (old, s.buffer.dropLast)) ∧
        (s.buffer.dropLast.length : Int) < s.options.maxStackSize ∧
        (∀ i : Nat, ((stackPush i s.buffer.dropLast).length : Int) ≤ s.options.maxStackSize)) := by
  have hI := inv_reachable h
  refine ⟨⟨Int.natCast_nonneg _, hI.capBound hcap⟩, ?_, ?_⟩
  · intro e he
    have h3 := step_options s e
    rw [← h3]
    exact (inv_step hI he).capBound (by rw [h3]; exact hcap)
  · intro hf
    have hne := full_ne_nil hf
    obtain ⟨old, hsh, hbot⟩ := stackShift_of_ne_nil hne
    simp only [stackIsFull, Bool.and_eq_true, decide_eq_true_eq, beq_iff_eq] at hf
    have h1 : s.buffer.dropLast.length = s.buffer.length - 1 := List.length_dropLast _
    have h2 : s.buffer.length ≠ 0 := fun h0 => hne (List.length_eq_zero.mp h0)
    refine ⟨⟨old, hbot, hsh⟩, ?_, ?_⟩
    · rw [h1]
      omega
    · intro i
      simp only [stackPush, List.length_cons, h1]
      push_cast
      omega

/-- C4 witness: in the concrete run with capacity 1 the queued buffer holds
one waiter, within the bound, and every enabled event keeps it there. -/
theorem buffer_capacity_bound_witness :
    0 ≤ (runQueuedExample.buffer.length : Int) ∧
    (runQueuedExample.buffer.length : Int) ≤ runQueuedExample.options.maxStackSize :=
  (buffer_capacity_bound ⟨1, 1, 0, 0⟩ runQueuedExample
      (Reachable.next (Reachable.next Reachable.init (by decide)) (by decide))
      (by decide)).1

/-- C9: in every reachable state (along well-formed traces, where each
release is used at most once), a non-empty buffer implies the active count has
reached `max_concurrency`: no concurrency slot is free while a waiter is
queued. -/
theorem queued_implies_active_at_max (o : Options) (s : State) (h : Reachable o s)
    (hne : s.buffer ≠ []) : s.busy = s.options.maxConcurrency :=
  (inv_reachable h).queueBusy hne

/-- C9 witness: in the concrete run with one running job and one queued
waiter, the active count equals the concurrency ceiling. -/
theorem queued_implies_active_at_max_witness :
    runQueuedExample.busy = runQueuedExample.options.maxConcurrency :=
  queued_implies_active_at_max ⟨1, 1, 0, 0⟩ runQueuedExample
    (Reachable.next (Reachable.next Reachable.init (by decide)) (by decide))
    (by decide)

/-- C7: once the controller has terminated, `Wait` answers `ERR_CLOSED`
without blocking, `Status` answers the closed snapshot, the release function
of an earlier acquire is a non-blocking no-op, and no event can engage the
stopped loop. -/
theorem terminated_api_safe (o : Options) (s : State) (_hr : Reachable o s)
    (hc : s.closed = true) :
    waitCall s = some Sig.closedErr ∧
    (statusCall s).closed = true ∧
    releaseCall s = none ∧
    (∀ e : Event, enabled s e = false) := by
  refine ⟨by simp [waitCall, hc], by simp [statusCall, hc], by simp [releaseCall, hc], ?_⟩
  intro e
  simp [enabled, hc]

/-- C7 witness: the concrete admit-close-complete run terminates, after which
the API refuses without engaging the loop. -/
theorem terminated_api_safe_witness :
    waitCall runClosedExample = some Sig.closedErr ∧
    (statusCall runClosedExample).closed = true ∧
    releaseCall runClosedExample = none ∧
    (∀ e : Event, enabled runClosedExample e = false) :=
  terminated_api_safe ⟨1, 0, 0, 0⟩ runClosedExample
    (Reachable.next (Reachable.next (Reachable.next Reachable.init (by decide)) (by decide)) (by decide))
    (by decide)

lemma stepDoneCore_closing (s : State) : (stepDoneCore s).closing = s.closing := by
  rcases hbuf : s.buffer with _ | ⟨j, rest⟩
  · rw [stepDoneCore_nil hbuf]
  · rw [stepDoneCore_cons hbuf]

lemma stepDoneCore_closed (s : State) : (stepDoneCore s).closed = s.closed := by
  rcases hbuf : s.buffer with _ | ⟨j, rest⟩
  · rw [stepDoneCore_nil hbuf]
  · rw [stepDoneCore_cons hbuf]

/-- C6: the graceful-close protocol: closing with no active job and an empty
buffer terminates at once; otherwise the controller keeps running, marked
closing, arming the grace timer when `close_timeout > 0`; while closing every
arrival is answered `ERR_CLOSED` and not enqueued; a completion terminates the
controller exactly when it leaves no active job and an empty buffer; and the
grace timer firing rejects all buffered waiters with `ERR_CLOSED` and
terminates without touching the active count. -/
theorem close_protocol_correct (s : State) (hcl : s.closed = false) :
    closeProtocol s := by
  unfold closeProtocol
  refine ⟨?_, ?_, ?_, ?_, rfl, rfl, rfl, rfl⟩
  · rintro ⟨hb0, hbe⟩
    have hcond : (s.busy == 0 && stackEmpty s.buffer) = true := by
      simp [hb0, hbe, stackEmpty]
    rw [stepClose_false, if_pos hcond]
  · intro hnot
    have hcond : ¬ ((s.busy == 0 && stackEmpty s.buffer) = true) := by
      intro hcond
      simp only [Bool.and_eq_true, beq_iff_eq] at hcond
      exact hnot ⟨hcond.1, stackEmpty_iff.mp hcond.2⟩
    rw [stepClose_false, if_neg hcond]
    split
    · exact ⟨hcl, rfl, rfl, rfl, fun _ => rfl⟩
    · next h2 => exact ⟨hcl, rfl, rfl, rfl, fun hpos => absurd hpos h2⟩
  · intro hc i
    refine ⟨?_, ?_, ?_⟩ <;> simp [stepArrive, hc]
  · intro hc
    rw [stepDone_eq]
    split
    · next hcond =>
        simp only [Bool.and_eq_true, beq_iff_eq] at hcond
        constructor
        · intro _
          exact ⟨hcond.1.2, stackEmpty_iff.mp hcond.2⟩
        · intro _
          rfl
    · next hcond =>
        constructor
        · intro hfalse
          have h2 : (stepDoneCore s).closed = false := by
            rw [stepDoneCore_closed]
            exact hcl
          rw [h2] at hfalse
          cases hfalse
        · rintro ⟨h1, h2⟩
          exfalso
          apply hcond
          simp [stepDoneCore_closing, hc, h1, h2, stackEmpty]

/-- C6 witness: the close protocol at the concrete state with one running job
and two queued waiters. -/
theorem close_protocol_correct_witness : closeProtocol twoQueued :=
  close_protocol_correct twoQueued (by decide)

lemma trimGo_eq (cap : Int) (hpos : 0 < cap) :
    ∀ (fuel : Nat) (b : List Nat), b.length ≤ fuel →
      trimGo fuel b cap =
        (b.take cap.toNat, (b.drop cap.toNat).reverse.map (fun j => (j, Sig.stackFull))) := by
  intro fuel
  induction fuel with
  | zero =>
      intro b hb
      have hb0 : b = [] := List.length_eq_zero.mp (Nat.le_zero.mp hb)
      subst hb0
      simp [trimGo]
  | succ n ih =>
      intro b hb
      by_cases hgt : cap < (b.length : Int)
      · have hne : b ≠ [] := by
          intro h0
          subst h0
          simp at hgt
          omega
        obtain ⟨old, hsh, hbot⟩ := stackShift_of_ne_nil hne
        have hgl : b.getLast? = some old := by simpa [stackBottom] using hbot
        have hld : b.dropLast.length = b.length - 1 := List.length_dropLast b
        have hb0 : b.length ≠ 0 := fun h0 => hne (List.length_eq_zero.mp h0)
        have hlen : b.dropLast.length ≤ n := by omega
        simp only [trimGo, if_pos (And.intro hpos hgt), hsh]
        rw [ih b.dropLast hlen]
        have hk : ((cap.toNat : Nat) : Int) = cap := Int.toNat_of_nonneg hpos.le
        have hkd : cap.toNat ≤ b.dropLast.length := by omega
        have hcat := dropLast_append_of_getLast? hgl
        rw [← hcat, List.take_append_of_le_length hkd, List.drop_append_of_le_length hkd]
        simp
      · simp only [trimGo]
        rw [if_neg (fun hcon => hgt hcon.2)]
        have hlenle : b.length ≤ cap.toNat := by omega
        rw [List.take_of_length_le hlenle, List.drop_eq_nil_of_le hlenle]
        simp

lemma trimLoop_pos {cap : Int} (hpos : 0 < cap) (b : List Nat) :
    trimLoop b cap =
      (b.take cap.toNat, (b.drop cap.toNat).reverse.map (fun j => (j, Sig.stackFull))) :=
  trimGo_eq cap hpos b.length b le_rfl

lemma trimLoop_nonpos {cap : Int} (hpos : ¬ 0 < cap) (b : List Nat) :
    trimLoop b cap = (b, []) := by
  rcases b with _ | ⟨x, xs⟩
  · rfl
  · simp only [trimLoop, List.length_cons, trimGo]
    rw [if_neg (fun hcon => hpos hcon.1)]

lemma admitLoop_eq : ∀ (b : List Nat) (busy maxC : Int),
    admitLoop b busy maxC =
      (b.drop (min (maxC - busy).toNat b.length),
       busy + ((min (maxC - busy).toNat b.length : Nat) : Int),
       (b.take (min (maxC - busy).toNat b.length)).map (fun j => (j, Sig.ok))) := by
  intro b
  induction b with
  | nil =>
      intro busy maxC
      simp [admitLoop]
  | cons j rest ih =>
      intro busy maxC
      by_cases hlt : busy < maxC
      · have hm : min (maxC - busy).toNat (rest.length + 1)
            = min (maxC - (busy + 1)).toNat rest.length + 1 := by omega
        simp only [admitLoop, if_pos hlt, ih (busy + 1) maxC, List.length_cons, hm,
          Prod.mk.injEq]
        refine ⟨?_, ?_, ?_⟩
        · simp
        · push_cast
          ring
        · simp
      · have hm : (maxC - busy).toNat = 0 := by omega
        simp only [admitLoop, if_neg hlt, List.length_cons, hm]
        simp

/-- C5: `reconfigure` behaves as specified: `ERR_CLOSED` after termination;
otherwise it normalizes `max_concurrency`, installs the new options, trims the
buffer bottom-first to the new capacity with `ERR_STACK_FULL` notifications,
admits from the top while a slot is free, and returns success. -/
theorem reconfigure_follows_spec (s : State) (no : Options) :
    reconfigureSpec s no := by
  have htr : trimLoop s.buffer (withOptions no).maxStackSize
      = (trimmedBuffer s no, (droppedWaiters s no).reverse.map (fun j => (j, Sig.stackFull))) := by
    unfold trimmedBuffer droppedWaiters
    by_cases hpos : 0 < (withOptions no).maxStackSize
    · rw [trimLoop_pos hpos, if_pos hpos, if_pos hpos]
    · rw [trimLoop_nonpos hpos, if_neg hpos, if_neg hpos]
      simp
  unfold reconfigureSpec
  constructor
  · intro hc
    simp [reconfigure, hc]
  · intro hc
    have hok : reconfigure s no = Except.ok { s with options := withOptions no, buffer := (admitLoop (trimmedBuffer s no) s.busy (withOptions no).maxConcurrency).1, busy := (admitLoop (trimmedBuffer s no) s.busy (withOptions no).maxConcurrency).2.1, log := s.log ++ ((droppedWaiters s no).reverse.map (fun j => (j, Sig.stackFull)) ++ (admitLoop (trimmedBuffer s no) s.busy (withOptions no).maxConcurrency).2.2) } := by
      simp [reconfigure, hc, htr]
    refine ⟨_, hok, rfl, ?_, rfl, hc, ?_, ?_, ?_⟩
    · intro hle
      simp [withOptions, hle]
    · show (admitLoop (trimmedBuffer s no) s.busy (withOptions no).maxConcurrency).1
        = (trimmedBuffer s no).drop (admitCount s no)
      rw [admitLoop_eq]
      rfl
    · show (admitLoop (trimmedBuffer s no) s.busy (withOptions no).maxConcurrency).2.1
        = s.busy + ((admitCount s no : Nat) : Int)
      rw [admitLoop_eq]
      rfl
    · show s.log ++ ((droppedWaiters s no).reverse.map (fun j => (j, Sig.stackFull))
            ++ (admitLoop (trimmedBuffer s no) s.busy (withOptions no).maxConcurrency).2.2)
        = s.log ++ ((droppedWaiters s no).reverse.map (fun j => (j, Sig.stackFull))
            ++ ((trimmedBuffer s no).take (admitCount s no)).map (fun j => (j, Sig.ok)))
      rw [admitLoop_eq]
      rfl

/-- C5 witness: reconfiguring the concrete saturated state (one running job,
two queued) to concurrency 2 and capacity 1 trims the oldest waiter and
admits the newest. -/
theorem reconfigure_follows_spec_witness : reconfigureSpec twoQueued ⟨2, 1, 0, 0⟩ :=
  reconfigure_follows_spec twoQueued ⟨2, 1, 0, 0⟩

/-- C10: the adapter maps `ERR_STACK_FULL` to the configured stack-full status
and `ERR_TIMEOUT` to the configured timeout status, both defaulting to 503
when configured as 0; on success the inner handler's response stands, and with
no inner handler the response is 404. -/
theorem http_adapter_status (o : HTTPOptions) (hasInner : Bool) (innerStatus : Int) :
    ServeHTTP (NewHandler o hasInner) Sig.stackFull innerStatus =
      (if o.stackFullStatusCode = 0 then 503 else o.stackFullStatusCode) ∧
    ServeHTTP (NewHandler o hasInner) Sig.timeoutErr innerStatus =
      (if o.timeoutStatusCode = 0 then 503 else o.timeoutStatusCode) ∧
    (hasInner = true →
      ServeHTTP (NewHandler o hasInner) Sig.ok innerStatus = innerStatus) ∧
    (hasInner = false →
      ServeHTTP (NewHandler o hasInner) Sig.ok innerStatus = 404) := by
  refine ⟨?_, ?_, ?_, ?_⟩ <;>
    [skip; skip; intro hT; intro hF] <;>
    simp only [ServeHTTP, NewHandler] <;>
    split_ifs <;>
    simp_all

/-- C10 witness: with both codes configured as 0 and an inner handler, a
stack-full rejection responds 503, and a successful admission lets the inner
response 200 stand; without an inner handler the response is 404. -/
theorem http_adapter_status_witness :
    ServeHTTP (NewHandler ⟨⟨1, 0, 0, 0⟩, 0, 0⟩ true) Sig.stackFull 200 = 503 ∧
    ServeHTTP (NewHandler ⟨⟨1, 0, 0, 0⟩, 0, 0⟩ true) Sig.ok 200 = 200 ∧
    ServeHTTP (NewHandler ⟨⟨1, 0, 0, 0⟩, 0, 0⟩ false) Sig.ok 200 = 404 := by
  refine ⟨?_, ?_, ?_⟩
  · have h := (http_adapter_status ⟨⟨1, 0, 0, 0⟩, 0, 0⟩ true 200).1
    simpa using h
  · exact (http_adapter_status ⟨⟨1, 0, 0, 0⟩, 0, 0⟩ true 200).2.2.1 rfl
  · exact (http_adapter_status ⟨⟨1, 0, 0, 0⟩, 0, 0⟩ false 200).2.2.2 rfl

end Jobqueue
